import Mathlib

/-!
Verification of the Speedy2D rendering-core specification.

The repository under verification ships its test harness (test/main.rs) and
the timing utility (src/time.rs); the rendering core itself (frame pipeline,
clipping, blending, capture, text layout, polygon triangulation, resource
manager) is exercised by the tests but its implementation files are not part
of the source tree given here.  Those parts are therefore modelled from the
specification text, definition by definition, and the claims are settled
against the models.  The timer is embedded directly from src/time.rs.
-/

namespace Speedy2D

/- ## Colors and alpha-over blending -/

/-- Modelled from the spec: an RGBA color with rational components
(section 4.4: blending uses each primitive's color/alpha). -/
structure Color where
  r : ℚ
  g : ℚ
  b : ℚ
  a : ℚ
deriving DecidableEq

/-- Modelled from the spec: standard alpha-over compositing (section 4.4),
straight-alpha source-over: out = src·srcα + dst·(1−srcα) per channel,
outα = srcα + dstα·(1−srcα). -/
def blend (src dst : Color) : Color :=
  { r := src.r * src.a + dst.r * (1 - src.a)
    g := src.g * src.a + dst.g * (1 - src.a)
    b := src.b * src.a + dst.b * (1 - src.a)
    a := src.a + dst.a * (1 - src.a) }

lemma blend_transparent (src dst : Color) (h : src.a = 0) : blend src dst = dst := by
  obtain ⟨r, g, b, a⟩ := dst
  simp only [blend, Color.mk.injEq, h]
  refine ⟨by ring, by ring, by ring, by ring⟩

lemma blend_opaque (src dst : Color) (h : src.a = 1) : blend src dst = src := by
  obtain ⟨r, g, b, a⟩ := src
  simp only [Color.mk.injEq] at h
  simp only [blend, Color.mk.injEq, h]
  refine ⟨by ring, by ring, by ring, by ring⟩

/- ## Rectangles, clipping and the draw-command stream -/

/-- Modelled from the spec: an axis-aligned rectangle given by its
top-left and bottom-right corners in layout units. -/
structure Rect where
  left : ℚ
  top : ℚ
  right : ℚ
  bottom : ℚ
deriving DecidableEq

/-- Modelled from the spec: whether the integer pixel (x, y) lies inside
the rectangle, at pixel granularity (section 4.4: clip is a hard
rectangular cut at pixel granularity). -/
def covers (r : Rect) (x y : ℕ) : Bool :=
  decide (r.left ≤ (x : ℚ) ∧ (x : ℚ) < r.right ∧ r.top ≤ (y : ℚ) ∧ (y : ℚ) < r.bottom)

/-- Modelled from the spec: the effective clip carried by a draw command —
`none` means unbounded (whole surface), `some r` is the intersection of all
active clip rectangles at submission time (section 3, ClipStack). -/
def inClip (clip : Option Rect) (x y : ℕ) : Bool :=
  match clip with
  | none => true
  | some r => covers r x y

/-- Modelled from the spec: the draw commands the claims exercise, each
carrying the currently active clip rectangle at submission time
(section 3, DrawCommand).  `clear` replaces the color buffer inside the
clip; `rect` composites a filled rectangle inside the clip. -/
inductive DrawCommand where
  | clear (c : Color) (clip : Option Rect)
  | rect (r : Rect) (c : Color) (clip : Option Rect)

/-- Modelled from the spec: the clip rectangle a command was submitted under. -/
def DrawCommand.clipOf : DrawCommand → Option Rect
  | .clear _ clip => clip
  | .rect _ _ clip => clip

/-- The color buffer: a color per integer pixel. -/
def Framebuffer : Type := ℕ → ℕ → Color

/-- Modelled from the spec: rasterizing one draw command onto the color
buffer.  Nothing outside the command's clip is written; inside it, a clear
replaces the pixel and a rectangle composites over it (section 4.4). -/
def applyCommand (fb : Framebuffer) (cmd : DrawCommand) : Framebuffer :=
  match cmd with
  | .clear c clip => fun x y => if inClip clip x y then c else fb x y
  | .rect r c clip =>
      fun x y => if inClip clip x y && covers r x y then blend c (fb x y) else fb x y

/-- Modelled from the spec: rasterizing a command stream in submission
order, later commands compositing over earlier ones (section 4.4). -/
def rasterizeCmds (cmds : List DrawCommand) (fb : Framebuffer) : Framebuffer :=
  cmds.foldl applyCommand fb

lemma applyCommand_of_notInClip (fb : Framebuffer) (cmd : DrawCommand) (x y : ℕ)
    (h : inClip cmd.clipOf x y = false) : applyCommand fb cmd x y = fb x y := by
  cases cmd with
  | clear c clip => simp [applyCommand, DrawCommand.clipOf] at h ⊢; simp [h]
  | rect r c clip => simp [applyCommand, DrawCommand.clipOf] at h ⊢; simp [h]

lemma rasterizeCmds_of_notInClip (cmds : List DrawCommand) :
    ∀ (fb : Framebuffer) (x y : ℕ),
      (∀ cmd ∈ cmds, inClip cmd.clipOf x y = false) →
      rasterizeCmds cmds fb x y = fb x y := by
  induction cmds with
  | nil => intro fb x y _; rfl
  | cons c rest ih =>
      intro fb x y h
      have hc : inClip c.clipOf x y = false := h c (List.mem_cons_self c rest)
      have hrest : ∀ cmd ∈ rest, inClip cmd.clipOf x y = false := by
        intro cmd hm; exact h cmd (List.mem_cons_of_mem c hm)
      calc rasterizeCmds (c :: rest) fb x y
          = rasterizeCmds rest (applyCommand fb c) x y := rfl
        _ = applyCommand fb c x y := ih (applyCommand fb c) x y hrest
        _ = fb x y := applyCommand_of_notInClip fb c x y hc

/- ## Framebuffer capture -/

/-- Modelled from the spec: the pixel formats supported by raw-pixel image
creation and by capture (sections 3 and 4.4): RGBA8 and RGB8. -/
inductive ImageDataType where
  | RGB
  | RGBA
deriving DecidableEq

/-- Modelled from the spec: bytes per pixel of each supported format. -/
def bytesPerPixel : ImageDataType → ℕ
  | .RGB => 3
  | .RGBA => 4

/-- Quantize a rational color channel in [0, 1] to one byte. -/
def toByte (q : ℚ) : ℕ := (max 0 (min 255 ⌊q * 255 + 1 / 2⌋)).toNat

/-- Modelled from the spec: the byte encoding of one pixel in the requested
format (RGB8 drops the alpha byte). -/
def encodePixel (fmt : ImageDataType) (c : Color) : List ℕ :=
  match fmt with
  | .RGB => [toByte c.r, toByte c.g, toByte c.b]
  | .RGBA => [toByte c.r, toByte c.g, toByte c.b, toByte c.a]

/-- Modelled from the spec: the state of an open frame on a W×H surface —
the color buffer rasterized so far plus the pending (not yet rasterized)
geometry (section 4.4). -/
structure RenderState where
  width : ℕ
  height : ℕ
  fb : Framebuffer
  pending : List DrawCommand

/-- Modelled from the spec: rasterize all pending geometry into the color
buffer (capture forces this before reading back, section 4.4). -/
def flush (st : RenderState) : RenderState :=
  { st with fb := rasterizeCmds st.pending st.fb, pending := [] }

/-- Modelled from the spec: a CPU-side snapshot of the rendered surface —
pixel format, width, height, raw byte buffer (section 3, Capture). -/
structure Capture where
  format : ImageDataType
  width : ℕ
  height : ℕ
  data : List ℕ

/-- Modelled from the spec: `capture(format)` forces pending geometry to be
rasterized, then reads back the color buffer row-major in the requested
format (section 4.4). -/
def capture (st : RenderState) (fmt : ImageDataType) : Capture :=
  let fl := flush st
  { format := fmt
    width := fl.width
    height := fl.height
    data :=
      (List.range (fl.width * fl.height)).flatMap fun i =>
        encodePixel fmt (fl.fb (i % fl.width) (i / fl.width)) }

lemma encodePixel_length (fmt : ImageDataType) (c : Color) :
    (encodePixel fmt c).length = bytesPerPixel fmt := by
  cases fmt <;> rfl

lemma sum_map_const {α : Type} (l : List α) (k : ℕ) :
    (l.map fun _ => k).sum = l.length * k := by
  induction l with
  | nil => simp
  | cons a t ih => simp [ih, Nat.succ_mul, Nat.add_comm]

/- ## Scenario colors and command streams -/

/-- Opaque white. -/
def whiteC : Color := ⟨1, 1, 1, 1⟩

/-- Opaque black. -/
def blackC : Color := ⟨0, 0, 0, 1⟩

/-- Opaque red. -/
def redC : Color := ⟨1, 0, 0, 1⟩

/-- Opaque green. -/
def greenC : Color := ⟨0, 1, 0, 1⟩

/-- Opaque blue. -/
def blueC : Color := ⟨0, 0, 1, 1⟩

/-- Opaque magenta. -/
def magentaC : Color := ⟨1, 0, 1, 1⟩

/-- Opaque light gray, the cleared background of the clip scenario. -/
def lightGrayC : Color := ⟨3 / 4, 3 / 4, 3 / 4, 1⟩

/-- An arbitrary initial color buffer. -/
def fb0 : Framebuffer := fun _ _ => blackC

/-- The clip rectangle (10,10)-(30,20) of the clip scenario. -/
def clipR : Rect := ⟨10, 10, 30, 20⟩

/-- The clip-scenario command stream: clear to light gray, then with clip
(10,10)-(30,20) active draw a red rectangle (0,0)-(20,40) and a blue
rectangle (20,0)-(40,40). -/
def clipScenario : List DrawCommand :=
  [.clear lightGrayC none,
   .rect ⟨0, 0, 20, 40⟩ redC (some clipR),
   .rect ⟨20, 0, 40, 40⟩ blueC (some clipR)]

/-- The submission-order scenario: clear to white, draw a magenta rectangle
(10,20)-(30,40), then an overlapping green rectangle (15,30)-(49,48). -/
def orderScenario : List DrawCommand :=
  [.clear whiteC none,
   .rect ⟨10, 20, 30, 40⟩ magentaC none,
   .rect ⟨15, 30, 49, 48⟩ greenC none]

/- ## Claims C1 to C4 -/

/-- Claim C1: for every open frame on a W×H surface (any pending geometry,
so the capture may happen mid-frame or at frame end) and every supported
pixel format, `capture` returns exactly W×H×bytes-per-pixel(format) bytes
and reports size (W, H). -/
theorem capture_size_exact (st : RenderState) (fmt : ImageDataType) :
    (capture st fmt).data.length = st.width * st.height * bytesPerPixel fmt ∧
    (capture st fmt).width = st.width ∧ (capture st fmt).height = st.height := by
  refine ⟨?_, rfl, rfl⟩
  show ((List.range (st.width * st.height)).flatMap fun i =>
      encodePixel fmt ((flush st).fb (i % st.width) (i / st.width))).length = _
  rw [List.length_flatMap]
  have hmap :
      (List.map
        (List.length ∘ fun i =>
          encodePixel fmt ((flush st).fb (i % st.width) (i / st.width)))
        (List.range (st.width * st.height)))
        = (List.range (st.width * st.height)).map fun _ => bytesPerPixel fmt := by
    refine List.map_congr_left fun i _ => ?_
    simp [Function.comp, encodePixel_length]
  rw [hmap, sum_map_const, List.length_range]

/-- Claim C2: clipping is a hard rectangular cut.  First, for every command
stream, a pixel outside every command's active clip is never written.
Second, in the scenario clip = (10,10)-(30,20) with a red rectangle
(0,0)-(20,40) then a blue rectangle (20,0)-(40,40) over a light-gray clear,
each pixel inside the clip takes the color of the last scenario rectangle
covering it, and every pixel outside the clip keeps the cleared
background. -/
theorem clip_hard_cut :
    (∀ (cmds : List DrawCommand) (fb : Framebuffer) (x y : ℕ),
        (∀ cmd ∈ cmds, inClip cmd.clipOf x y = false) →
        rasterizeCmds cmds fb x y = fb x y) ∧
    (∀ (fb : Framebuffer) (x y : ℕ),
        rasterizeCmds clipScenario fb x y =
          if inClip (some clipR) x y then
            if covers ⟨20, 0, 40, 40⟩ x y then blueC
            else if covers ⟨0, 0, 20, 40⟩ x y then redC
            else lightGrayC
          else lightGrayC) := by
  constructor
  · intro cmds fb x y h
    exact rasterizeCmds_of_notInClip cmds fb x y h
  · intro fb x y
    show applyCommand (applyCommand (applyCommand fb
      (.clear lightGrayC none)) (.rect ⟨0, 0, 20, 40⟩ redC (some clipR)))
      (.rect ⟨20, 0, 40, 40⟩ blueC (some clipR)) x y = _
    have hb : ∀ d, blend blueC d = blueC := fun d => blend_opaque _ _ rfl
    have hr : ∀ d, blend redC d = redC := fun d => blend_opaque _ _ rfl
    simp only [applyCommand, inClip]
    by_cases h1 : covers clipR x y = true <;>
      by_cases h2 : covers ⟨20, 0, 40, 40⟩ x y = true <;>
      by_cases h3 : covers ⟨0, 0, 20, 40⟩ x y = true <;>
      simp [h1, h2, h3, hb, hr]

/-- Claim C2 witness: at pixel (5,5), which lies outside the clip of both
scenario rectangles, the rectangles leave the buffer unchanged. -/
theorem clip_hard_cut_witness :
    (∀ cmd ∈ [DrawCommand.rect ⟨0, 0, 20, 40⟩ redC (some clipR),
              DrawCommand.rect ⟨20, 0, 40, 40⟩ blueC (some clipR)],
        inClip cmd.clipOf 5 5 = false) ∧
    rasterizeCmds
      [DrawCommand.rect ⟨0, 0, 20, 40⟩ redC (some clipR),
       DrawCommand.rect ⟨20, 0, 40, 40⟩ blueC (some clipR)] fb0 5 5 = fb0 5 5 :=
  ⟨by decide, clip_hard_cut.1 _ fb0 5 5 (by decide)⟩

/-- Claim C3: draw commands are rasterized in submission order — appending a
command to a stream composites it over the result of the earlier stream —
and in the scenario clear-white, magenta rectangle (10,20)-(30,40), then
green rectangle (15,30)-(49,48), the pixel (20,35) is green (later draw
wins) and the pixel (5,5) is white. -/
theorem draw_order_submission :
    (∀ (cmds : List DrawCommand) (c : DrawCommand) (fb : Framebuffer),
        rasterizeCmds (cmds ++ [c]) fb = applyCommand (rasterizeCmds cmds fb) c) ∧
    rasterizeCmds orderScenario fb0 20 35 = greenC ∧
    rasterizeCmds orderScenario fb0 5 5 = whiteC := by
  have hg : ∀ d, blend greenC d = greenC := fun d => blend_opaque _ _ rfl
  have hm : ∀ d, blend magentaC d = magentaC := fun d => blend_opaque _ _ rfl
  refine ⟨fun cmds c fb => ?_, ?_, ?_⟩
  · simp [rasterizeCmds, List.foldl_append]
  · have c1 : covers ⟨10, 20, 30, 40⟩ 20 35 = true := by decide
    have c2 : covers ⟨15, 30, 49, 48⟩ 20 35 = true := by decide
    show applyCommand (applyCommand (applyCommand fb0
      (.clear whiteC none)) (.rect ⟨10, 20, 30, 40⟩ magentaC none))
      (.rect ⟨15, 30, 49, 48⟩ greenC none) 20 35 = greenC
    simp [applyCommand, inClip, c1, c2, hg, hm]
  · have c1 : covers ⟨10, 20, 30, 40⟩ 5 5 = false := by decide
    have c2 : covers ⟨15, 30, 49, 48⟩ 5 5 = false := by decide
    show applyCommand (applyCommand (applyCommand fb0
      (.clear whiteC none)) (.rect ⟨10, 20, 30, 40⟩ magentaC none))
      (.rect ⟨15, 30, 49, 48⟩ greenC none) 5 5 = whiteC
    simp [applyCommand, inClip, c1, c2]

/-- Claim C4: the two degenerate laws of alpha-over compositing — a fully
transparent source leaves the destination pixel unchanged, and a fully
opaque source replaces it exactly with the source color. -/
theorem blend_degenerate_laws (src dst : Color) :
    (src.a = 0 → blend src dst = dst) ∧ (src.a = 1 → blend src dst = src) :=
  ⟨blend_transparent src dst, blend_opaque src dst⟩

/-- Claim C4 witness: the two laws evaluated at concrete colors. -/
theorem blend_degenerate_laws_witness :
    blend ⟨1/2, 1/4, 3/4, 0⟩ ⟨1/3, 2/3, 1/5, 1⟩ = ⟨1/3, 2/3, 1/5, 1⟩ ∧
    blend ⟨1/2, 1/4, 3/4, 1⟩ ⟨1/3, 2/3, 1/5, 1⟩ = ⟨1/2, 1/4, 3/4, 1⟩ :=
  ⟨(blend_degenerate_laws _ _).1 rfl, (blend_degenerate_laws _ _).2 rfl⟩

/- ## Polygons: winding normalization and triangulation -/

/-- A 2D vertex in layout units. -/
structure Pt where
  x : ℚ
  y : ℚ
deriving DecidableEq

/-- Twice the signed area contribution of the edge from `a` to `b`. -/
def cross (a b : Pt) : ℚ := a.x * b.y - b.x * a.y

/-- Sum of `cross` over consecutive vertex pairs of an open path. -/
def pathSum : List Pt → ℚ
  | a :: b :: rest => cross a b + pathSum (b :: rest)
  | _ => 0

/-- `cross` lifted to optional endpoints; zero when either is missing. -/
def crossOpt : Option Pt → Option Pt → ℚ
  | some a, some b => cross a b
  | _, _ => 0

/-- Modelled from the spec: twice the signed area of the closed polygon
(shoelace formula), used to normalize the winding direction before
triangulation (section 4.3, Polygons). -/
def shoelace (p : List Pt) : ℚ := pathSum p + crossOpt p.getLast? p.head?

/-- Modelled from the spec: normalize winding before triangulation —
a polygon given with negative signed area is reversed (section 4.3). -/
def normalizeWinding (p : List Pt) : List Pt :=
  if shoelace p < 0 then p.reverse else p

/-- The edge function of the directed edge `a → b` evaluated at `q`. -/
def edgeFn (a b q : Pt) : ℚ :=
  (b.x - a.x) * (q.y - a.y) - (b.y - a.y) * (q.x - a.x)

/-- Whether point `q` lies inside the triangle `t` (all three edge
functions share a sign). -/
def triContains (t : Pt × Pt × Pt) (q : Pt) : Bool :=
  decide ((0 ≤ edgeFn t.1 t.2.1 q ∧ 0 ≤ edgeFn t.2.1 t.2.2 q ∧ 0 ≤ edgeFn t.2.2 t.1 q) ∨
    (edgeFn t.1 t.2.1 q ≤ 0 ∧ edgeFn t.2.1 t.2.2 q ≤ 0 ∧ edgeFn t.2.2 t.1 q ≤ 0))

/-- Modelled from the spec: fan triangulation of the normalized vertex
list (section 4.3). -/
def triangulateFan : List Pt → List (Pt × Pt × Pt)
  | a :: b :: c :: rest => (a, b, c) :: triangulateFan (a :: c :: rest)
  | _ => []
termination_by p => p.length

/-- Modelled from the spec: whether polygon rendering colors the point `q` —
the winding is normalized, the polygon is triangulated, and `q` is covered
when some triangle contains it (section 4.3). -/
def polygonPixel (p : List Pt) (q : Pt) : Bool :=
  (triangulateFan (normalizeWinding p)).any fun t => triContains t q

lemma cross_antisymm (a b : Pt) : cross a b = -cross b a := by
  simp only [cross]; ring

lemma crossOpt_antisymm (o₁ o₂ : Option Pt) : crossOpt o₁ o₂ = -crossOpt o₂ o₁ := by
  cases o₁ <;> cases o₂
  case some.some => simp only [crossOpt]; rw [cross_antisymm]
  all_goals simp [crossOpt]

lemma pathSum_append (xs : List Pt) :
    ∀ ys, pathSum (xs ++ ys) = pathSum xs + crossOpt xs.getLast? ys.head? + pathSum ys := by
  induction xs with
  | nil => intro ys; simp [pathSum, crossOpt]
  | cons a tail ih =>
      intro ys
      cases tail with
      | nil =>
          cases ys with
          | nil => simp [pathSum, crossOpt]
          | cons b r => simp [pathSum, crossOpt]
      | cons b r =>
          have h := ih ys
          have e2 : pathSum ((a :: b :: r) ++ ys) =
              cross a b + pathSum ((b :: r) ++ ys) := rfl
          have e : pathSum (a :: b :: r) = cross a b + pathSum (b :: r) := rfl
          rw [e2, e, List.getLast?_cons_cons, h]
          ring

lemma pathSum_reverse (p : List Pt) : pathSum p.reverse = -pathSum p := by
  induction p with
  | nil => simp [pathSum]
  | cons a tail ih =>
      rw [List.reverse_cons, pathSum_append, ih]
      cases tail with
      | nil => simp [pathSum, crossOpt]
      | cons b r =>
          rw [List.getLast?_reverse]
          simp only [List.head?_cons, pathSum, crossOpt, List.head?, cross]
          ring

lemma shoelace_reverse (p : List Pt) : shoelace p.reverse = -shoelace p := by
  unfold shoelace
  rw [pathSum_reverse, List.getLast?_reverse, List.head?_reverse,
    crossOpt_antisymm p.getLast? p.head?]
  ring

lemma normalizeWinding_reverse (p : List Pt) (h : shoelace p ≠ 0) :
    normalizeWinding p.reverse = normalizeWinding p := by
  unfold normalizeWinding
  rw [shoelace_reverse]
  rcases lt_trichotomy (shoelace p) 0 with hlt | heq | hgt
  · have h1 : ¬ -shoelace p < 0 := by linarith
    rw [if_neg h1, if_pos hlt]
  · exact absurd heq h
  · have h1 : -shoelace p < 0 := by linarith
    have h2 : ¬ shoelace p < 0 := by linarith
    rw [if_pos h1, if_neg h2, List.reverse_reverse]

/-- Claim C5: rendering a simple polygon (nonzero signed area) given its
vertices in one order and given the reversed order colors exactly the same
points. -/
theorem polygon_winding_invariant (p : List Pt) (h : shoelace p ≠ 0) (q : Pt) :
    polygonPixel p q = polygonPixel p.reverse q := by
  unfold polygonPixel
  rw [normalizeWinding_reverse p h]

/-- The pentagon of the polygon rendering scenario. -/
def pentagon : List Pt :=
  [⟨100, 100⟩, ⟨250, 50⟩, ⟨400, 100⟩, ⟨300, 400⟩, ⟨100, 400⟩]

/-- Claim C5 witness: the scenario pentagon has nonzero signed area, and its
rendering is unchanged under vertex reversal at the probe point (200, 200). -/
theorem polygon_winding_invariant_witness :
    shoelace pentagon ≠ 0 ∧
    polygonPixel pentagon ⟨200, 200⟩ = polygonPixel pentagon.reverse ⟨200, 200⟩ :=
  ⟨by norm_num [shoelace, pathSum, crossOpt, cross, pentagon],
   polygon_winding_invariant pentagon
     (by norm_num [shoelace, pathSum, crossOpt, cross, pentagon]) ⟨200, 200⟩⟩

/- ## Text layout: greedy word wrapping -/

/-- Modelled from the spec: the measured width of a line given as the list
of its word widths, with one inter-word space of width `sp` between
consecutive words (section 4.1, steps 2 and 3: trailing whitespace does
not count toward the measured width). -/
def lineWidth (sp : ℚ) : List ℚ → ℚ
  | [] => 0
  | [w] => w
  | w :: rest => w + sp + lineWidth sp rest

/-- Modelled from the spec: greedy wrapping loop — `cur` is the line being
accumulated; a word is appended while the line stays within `W`, otherwise
the line is emitted and the word starts a new line (section 4.1, step 2). -/
def wrapAux (W sp : ℚ) (cur : List ℚ) : List ℚ → List (List ℚ)
  | [] => [cur]
  | w :: rest =>
      if lineWidth sp cur + sp + w ≤ W then wrapAux W sp (cur ++ [w]) rest
      else cur :: wrapAux W sp [w] rest

/-- Modelled from the spec: greedy word wrapping of a whitespace-delimited
word sequence (each word given by its width) to wrap width `W`
(section 4.1, step 2).  The first word always starts the first line, even
when wider than `W`. -/
def wrapGreedy (W sp : ℚ) : List ℚ → List (List ℚ)
  | [] => []
  | w :: rest => wrapAux W sp [w] rest

lemma lineWidth_cons (sp a : ℚ) (l : List ℚ) (h : l ≠ []) :
    lineWidth sp (a :: l) = a + sp + lineWidth sp l := by
  cases l with
  | nil => exact absurd rfl h
  | cons b r => rfl

lemma lineWidth_append_single (sp : ℚ) (l : List ℚ) (hl : l ≠ []) (w : ℚ) :
    lineWidth sp (l ++ [w]) = lineWidth sp l + sp + w := by
  induction l with
  | nil => exact absurd rfl hl
  | cons a t ih =>
      cases t with
      | nil => show lineWidth sp [a, w] = _; simp [lineWidth]
      | cons b r =>
          rw [List.cons_append,
            lineWidth_cons sp a ((b :: r) ++ [w]) (by simp),
            lineWidth_cons sp a (b :: r) (by simp), ih (by simp)]
          ring

lemma wrapAux_good (W sp : ℚ) :
    ∀ (ws cur : List ℚ), cur ≠ [] →
      (lineWidth sp cur ≤ W ∨ cur.length = 1) →
      ∀ l ∈ wrapAux W sp cur ws, lineWidth sp l ≤ W ∨ l.length = 1 := by
  intro ws
  induction ws with
  | nil =>
      intro cur hne hg l hl
      simp only [wrapAux, List.mem_singleton] at hl
      exact hl ▸ hg
  | cons w rest ih =>
      intro cur hne hg l hl
      simp only [wrapAux] at hl
      by_cases hc : lineWidth sp cur + sp + w ≤ W
      · rw [if_pos hc] at hl
        refine ih (cur ++ [w]) (by simp) (Or.inl ?_) l hl
        rw [lineWidth_append_single sp cur hne w]
        exact hc
      · rw [if_neg hc] at hl
        rcases List.mem_cons.mp hl with h | h
        · exact h ▸ hg
        · exact ih [w] (by simp) (Or.inr rfl) l h

lemma wrapAux_flatten (W sp : ℚ) :
    ∀ (ws cur : List ℚ), (wrapAux W sp cur ws).flatten = cur ++ ws := by
  intro ws
  induction ws with
  | nil => intro cur; simp [wrapAux]
  | cons w rest ih =>
      intro cur
      simp only [wrapAux]
      by_cases hc : lineWidth sp cur + sp + w ≤ W
      · rw [if_pos hc, ih (cur ++ [w])]
        simp
      · rw [if_neg hc, List.flatten_cons, ih [w]]
        simp

/-- Claim C6: greedy wrapping never produces a line wider than the wrap
width except a line holding a single (unsplittable) word, and no word is
ever split — the lines flatten back to the original word sequence. -/
theorem wrap_width_bound (W sp : ℚ) (_hsp : 0 ≤ sp) (ws : List ℚ) :
    (∀ l ∈ wrapGreedy W sp ws, lineWidth sp l ≤ W ∨ l.length = 1) ∧
    (wrapGreedy W sp ws).flatten = ws := by
  cases ws with
  | nil => simp [wrapGreedy]
  | cons w rest =>
      constructor
      · exact wrapAux_good W sp rest [w] (by simp) (Or.inr rfl)
      · rw [show wrapGreedy W sp (w :: rest) = wrapAux W sp [w] rest from rfl,
          wrapAux_flatten W sp rest [w]]
        rfl

/-- Claim C6 witness: wrapping the word widths 4, 5, 20, 3 with space width
1 to wrap width 10 — every produced line is within the width or a single
word, and the words are preserved unsplit. -/
theorem wrap_width_bound_witness :
    (0 : ℚ) ≤ 1 ∧
    ((∀ l ∈ wrapGreedy 10 1 [4, 5, 20, 3], lineWidth 1 l ≤ 10 ∨ l.length = 1) ∧
      (wrapGreedy 10 1 [4, 5, 20, 3]).flatten = [4, 5, 20, 3]) :=
  ⟨by norm_num, wrap_width_bound 10 1 (by norm_num) [4, 5, 20, 3]⟩

/- ## Text layout: per-line trimming -/

/-- Modelled from the spec: a glyph on a line — whether it is whitespace,
and its advance (base advance plus tracking) in layout units
(section 4.1). -/
structure Glyph where
  ws : Bool
  adv : ℚ
deriving DecidableEq

/-- The pen position of each glyph in a line: the running sum of the
advances of the glyphs before it, starting from `acc`. -/
def penPositions (acc : ℚ) : List ℚ → List ℚ
  | [] => []
  | a :: r => acc :: penPositions (acc + a) r

/-- The total advance width of a glyph sequence. -/
def advWidth (l : List Glyph) : ℚ := (l.map Glyph.adv).sum

/-- Modelled from the spec: the glyphs of a line with leading and trailing
whitespace stripped (section 4.1, step 3 — stripping affects only the
measured width, not the logical glyphs). -/
def trimGlyphs (l : List Glyph) : List Glyph :=
  ((l.dropWhile Glyph.ws).reverse.dropWhile Glyph.ws).reverse

/-- Modelled from the spec: the measured width of a line — with
`trim_each_line` on, leading/trailing whitespace glyphs are excluded from
the width; with it off, every glyph contributes (section 4.1, step 3). -/
def measuredWidth (trim : Bool) (l : List Glyph) : ℚ :=
  advWidth (if trim then trimGlyphs l else l)

/-- A laid-out line: per-glyph pen positions and the measured width. -/
structure LaidLine where
  positions : List ℚ
  width : ℚ
deriving DecidableEq

/-- Modelled from the spec: laying out one line — glyph pen positions are
the running advance sums (unaffected by trimming, which deletes no glyph),
and the measured width honors the trim flag (section 4.1, steps 3 and 5). -/
def layoutLine (trim : Bool) (l : List Glyph) : LaidLine :=
  { positions := penPositions 0 (l.map Glyph.adv)
    width := measuredWidth trim l }

/-- Alignment of wrapped text lines. -/
inductive TextAlignment where
  | Left
  | Center
  | Right
deriving DecidableEq

/-- Modelled from the spec: the horizontal placement of a line inside the
wrap box — its left offset under the given alignment, computed from the
measured (trim-aware) line width (section 4.1, step 5). -/
def lineOffset (align : TextAlignment) (boxW : ℚ) (trim : Bool) (l : List Glyph) : ℚ :=
  match align with
  | .Left => 0
  | .Right => boxW - measuredWidth trim l
  | .Center => (boxW - measuredWidth trim l) / 2

/-- The total advance of the leading whitespace run of a line. -/
def leadingWsWidth (l : List Glyph) : ℚ := advWidth (l.takeWhile Glyph.ws)

/-- The total advance of the trailing whitespace run of a line. -/
def trailingWsWidth (l : List Glyph) : ℚ :=
  advWidth ((l.dropWhile Glyph.ws).reverse.takeWhile Glyph.ws)

lemma advWidth_append (l₁ l₂ : List Glyph) :
    advWidth (l₁ ++ l₂) = advWidth l₁ + advWidth l₂ := by
  simp [advWidth]

lemma advWidth_reverse (l : List Glyph) : advWidth l.reverse = advWidth l := by
  unfold advWidth
  rw [List.map_reverse, List.sum_reverse]

lemma advWidth_split (p : Glyph → Bool) (l : List Glyph) :
    advWidth l = advWidth (l.takeWhile p) + advWidth (l.dropWhile p) := by
  conv_lhs => rw [← List.takeWhile_append_dropWhile (p := p) (l := l)]
  exact advWidth_append _ _

lemma penPositions_length (l : List ℚ) : ∀ acc, (penPositions acc l).length = l.length := by
  induction l with
  | nil => intro acc; rfl
  | cons a r ih => intro acc; simp [penPositions, ih]

/-- Claim C7: laying out a line with trimming on versus off yields the same
number of glyph positions (one per glyph — trimming deletes nothing),
identical pen positions for every glyph (in particular every non-edge
glyph), and measured widths differing exactly by the leading and trailing
whitespace advances, which is the only quantity through which the
horizontal placement under any alignment differs. -/
theorem trim_layout_relation (l : List Glyph) :
    (layoutLine true l).positions.length = l.length ∧
    (layoutLine false l).positions.length = l.length ∧
    (layoutLine true l).positions = (layoutLine false l).positions ∧
    measuredWidth false l =
      leadingWsWidth l + measuredWidth true l + trailingWsWidth l ∧
    (∀ (align : TextAlignment) (boxW : ℚ),
      lineOffset align boxW true l =
        lineOffset align boxW false l +
          match align with
          | .Left => 0
          | .Right => leadingWsWidth l + trailingWsWidth l
          | .Center => (leadingWsWidth l + trailingWsWidth l) / 2) := by
  have hlen : ∀ b : Bool, (layoutLine b l).positions.length = l.length := by
    intro b
    show (penPositions 0 (l.map Glyph.adv)).length = l.length
    rw [penPositions_length, List.length_map]
  have hw : measuredWidth false l =
      leadingWsWidth l + measuredWidth true l + trailingWsWidth l := by
    show advWidth l = _
    rw [advWidth_split Glyph.ws l]
    have h2 : advWidth (l.dropWhile Glyph.ws) =
        advWidth ((l.dropWhile Glyph.ws).reverse) := (advWidth_reverse _).symm
    rw [h2, advWidth_split Glyph.ws ((l.dropWhile Glyph.ws).reverse)]
    have h3 : measuredWidth true l =
        advWidth (((l.dropWhile Glyph.ws).reverse).dropWhile Glyph.ws) := by
      show advWidth (trimGlyphs l) = _
      rw [show trimGlyphs l =
        (((l.dropWhile Glyph.ws).reverse).dropWhile Glyph.ws).reverse from rfl]
      exact advWidth_reverse _
    rw [h3]
    show leadingWsWidth l + (trailingWsWidth l + _) = _
    ring
  refine ⟨hlen true, hlen false, rfl, hw, ?_⟩
  intro align boxW
  cases align with
  | Left => simp [lineOffset]
  | Right => simp only [lineOffset]; rw [hw]; ring
  | Center => simp only [lineOffset]; rw [hw]; ring

/- ## Resource lifecycle: image creation and frame-deferred destruction -/

/-- Modelled from the spec: the ResourceManager's GPU-side state — a fresh-id
counter, the ids of the GPU textures currently alive, and the retire queue of
ids whose destruction is deferred until the current frame completes
(sections 4.5 and 9). -/
structure ResourceManager where
  nextId : ℕ
  alive : List ℕ
  retired : List ℕ
deriving DecidableEq

/-- Modelled from the spec: creating an Image from raw pixels allocates a
fresh GPU texture handle (section 4.5). -/
def createImage (rm : ResourceManager) : ℕ × ResourceManager :=
  (rm.nextId,
    { nextId := rm.nextId + 1, alive := rm.nextId :: rm.alive, retired := rm.retired })

/-- Modelled from the spec: dropping the last application handle does not
free the GPU texture immediately — the id enters the retire queue
(sections 4.5 and 9). -/
def dropHandle (rm : ResourceManager) (i : ℕ) : ResourceManager :=
  { rm with retired := i :: rm.retired }

/-- Modelled from the spec: when the frame completes, every retired texture
is actually released (sections 4.5 and 9, retire queue). -/
def frameComplete (rm : ResourceManager) : ResourceManager :=
  { rm with alive := rm.alive.filter (fun i => !(rm.retired.contains i)), retired := [] }

/-- Modelled from the spec: one frame of the leak scenario — create an Image
from the same raw pixel buffer, draw it, drop all application handles, and
complete the frame (section 4.5; section 8, ten-frame scenario). -/
def frameCycle (rm : ResourceManager) : ResourceManager :=
  let c := createImage rm
  frameComplete (dropHandle c.2 c.1)

/-- The manager's invariant between frames: the retire queue is empty and
every alive id was allocated before the fresh-id counter. -/
def wfRM (rm : ResourceManager) : Prop :=
  rm.retired = [] ∧ ∀ i ∈ rm.alive, i < rm.nextId

lemma frameCycle_eq (rm : ResourceManager) (h : wfRM rm) :
    frameCycle rm = ⟨rm.nextId + 1, rm.alive, []⟩ := by
  obtain ⟨hr, ha⟩ := h
  show frameComplete ⟨rm.nextId + 1, rm.nextId :: rm.alive, rm.nextId :: rm.retired⟩ = _
  rw [hr]
  show (⟨rm.nextId + 1,
    (rm.nextId :: rm.alive).filter (fun i => !([rm.nextId].contains i)), []⟩ :
      ResourceManager) = _
  have hfilter :
      (rm.nextId :: rm.alive).filter (fun i => !([rm.nextId].contains i)) = rm.alive := by
    rw [List.filter_cons]
    simp only [List.contains_cons, List.contains_nil, Bool.or_false, beq_self_eq_true,
      Bool.not_true, Bool.false_eq_true, if_false]
    apply List.filter_eq_self.mpr
    intro i hi
    have hlt := ha i hi
    simp only [List.contains_cons, List.contains_nil, Bool.or_false, Bool.not_eq_true',
      beq_eq_false_iff_ne, ne_eq]
    omega
  rw [hfilter]

lemma wfRM_frameCycle (rm : ResourceManager) (h : wfRM rm) : wfRM (frameCycle rm) := by
  rw [frameCycle_eq rm h]
  exact ⟨rfl, fun i hi => Nat.lt_succ_of_lt (h.2 i hi)⟩

/-- Claim C8: running the create-draw-drop frame cycle any number of times
(in particular ten) leaves the count of alive GPU texture handles exactly
where it started — no creation/drop cycle leaks a handle. -/
theorem image_cycle_no_leak (rm : ResourceManager) (h : wfRM rm) (n : ℕ) :
    (frameCycle^[n] rm).alive.length = rm.alive.length := by
  induction n generalizing rm with
  | zero => rfl
  | succ n ih =>
      rw [Function.iterate_succ_apply, ih (frameCycle rm) (wfRM_frameCycle rm h),
        frameCycle_eq rm h]

/-- Claim C8 witness: ten frame cycles starting from a fresh manager leave
the alive-handle count unchanged. -/
theorem image_cycle_no_leak_witness :
    wfRM ⟨0, [], []⟩ ∧
    (frameCycle^[10] (⟨0, [], []⟩ : ResourceManager)).alive.length =
      (⟨0, [], []⟩ : ResourceManager).alive.length :=
  ⟨⟨rfl, by simp⟩, image_cycle_no_leak ⟨0, [], []⟩ ⟨rfl, by simp⟩ 10⟩

/- ## Timer (embedded from src/time.rs) -/

/-- A reading of the platform monotone clock, in seconds (embeds the
non-wasm `TimeInstant` wrapping `std::time::Instant`). -/
structure TimeInstant where
  value : ℚ
deriving DecidableEq

/-- The non-wasm `TimeClock` from src/time.rs carries no state. -/
structure TimeClock where
deriving DecidableEq

/-- `TimeClock::now` from src/time.rs: wrap the current monotone clock
reading (passed explicitly here) into a `TimeInstant`. -/
def TimeClock.now (_ : TimeClock) (reading : ℚ) : TimeInstant :=
  { value := reading }

/-- `TimeClock::secs_elapsed_since` from src/time.rs (non-wasm path):
`start.value.elapsed().as_secs_f64()` — the time from `start` to the
current clock reading, saturating at zero as `Instant::elapsed` does. -/
def TimeClock.secsElapsedSince (_ : TimeClock) (start : TimeInstant) (reading : ℚ) : ℚ :=
  max (reading - start.value) 0

/-- `Timer` from src/time.rs: a clock plus the start instant taken at
construction. -/
structure Timer where
  clock : TimeClock
  start : TimeInstant
deriving DecidableEq

/-- `Timer::new` from src/time.rs: build a clock and record `clock.now()`
as the start instant. -/
def Timer.new (reading : ℚ) : Timer :=
  let clock : TimeClock := {}
  { clock := clock, start := clock.now reading }

/-- `Timer::secs_elapsed` from src/time.rs: read the clock and measure from
the stored start; the method borrows the timer immutably, so the embedding
returns the (unchanged) timer alongside the result. -/
def Timer.secsElapsed (t : Timer) (reading : ℚ) : ℚ × Timer :=
  (t.clock.secsElapsedSince t.start reading, t)

/-- Claim C10: every `secs_elapsed` call returns a non-negative number of
seconds and leaves the timer (hence its stored start instant) unchanged, and
on a monotone clock successive calls return non-decreasing values, all
measured from the construction-time origin. -/
theorem timer_elapsed_monotone (t : Timer) (n₁ n₂ : ℚ) (h : n₁ ≤ n₂) :
    0 ≤ (t.secsElapsed n₁).1 ∧
    (t.secsElapsed n₁).2 = t ∧
    (t.secsElapsed n₁).1 ≤ (t.secsElapsed n₂).1 := by
  refine ⟨le_max_right _ _, rfl, ?_⟩
  exact max_le_max (sub_le_sub_right h _) le_rfl

/-- Claim C10 witness: a timer started at clock reading 5, probed at
readings 6 and then 7. -/
theorem timer_elapsed_monotone_witness :
    (6 : ℚ) ≤ 7 ∧
    (0 ≤ ((Timer.new 5).secsElapsed 6).1 ∧
      ((Timer.new 5).secsElapsed 6).2 = Timer.new 5 ∧
      ((Timer.new 5).secsElapsed 6).1 ≤ ((Timer.new 5).secsElapsed 7).1) :=
  ⟨by norm_num, timer_elapsed_monotone (Timer.new 5) 6 7 (by norm_num)⟩

end Speedy2D
